import Mathlib

/-!
Verification development for the Onyx terminal chat client.

The source of truth is the Rust code of the repository:
  * `onyx-tui/src/text_input.rs` — `TextInputState`, `UndoManager`
  * `onyx-tui/src/scroll.rs`     — `ScrollManager`
  * `onyx-tui/src/ui.rs`         — `App` (input buffer, command palette, undo)
  * `onyx-agent/src/chat.rs`     — `StreamEvent`, `ChatAgent::send_stream`
  * `onyx/src/main.rs`           — the session loop

Rust strings are UTF-8 byte buffers and every index stored by the
program (`cursor_position`, `selection_start`, word starts, …) is a
BYTE index.  We embed a Rust `String` as a `List Char` together with
the byte arithmetic of UTF-8: `utf8Size` is the byte width of one
scalar value, `byteLen` the byte length of a string, and `splitAtByte`
splits a string at a byte offset, returning `none` exactly when the
offset is out of range or falls in the middle of a multi-byte
code point — the situations in which the corresponding Rust string
operation panics.  Fallible operations are therefore `Option`-valued.
-/

namespace Onyx

/-- Byte width of one Unicode scalar value in UTF-8 (Rust `char::len_utf8`). -/
def utf8Size (c : Char) : Nat :=
  if c.val.toNat < 0x80 then 1
  else if c.val.toNat < 0x800 then 2
  else if c.val.toNat < 0x10000 then 3
  else 4

/-- Byte length of a string (Rust `str::len`). -/
def byteLen (s : List Char) : Nat :=
  (s.map utf8Size).sum

/-- Split a string at a byte offset.  `none` when the offset is larger than
the byte length or falls strictly inside the UTF-8 encoding of one
character; these are the cases in which Rust string slicing panics. -/
def splitAtByte : List Char → Nat → Option (List Char × List Char)
  | s, 0 => some ([], s)
  | [], _ + 1 => none
  | c :: rest, i + 1 =>
    if utf8Size c ≤ i + 1 then
      (splitAtByte rest (i + 1 - utf8Size c)).map (fun p => (c :: p.1, p.2))
    else
      none

/-- `i` is a character (code point) boundary of `s` (Rust `str::is_char_boundary`). -/
def isCharBoundary (s : List Char) (i : Nat) : Bool :=
  (splitAtByte s i).isSome

/-- Rust `String::insert(i, c)`: insert a character at byte offset `i`;
panics (`none`) off a character boundary. -/
def insertAtByte (s : List Char) (i : Nat) (c : Char) : Option (List Char) :=
  (splitAtByte s i).map (fun p => p.1 ++ c :: p.2)

/-- Rust `String::remove(i)`: remove the character starting at byte offset
`i`; panics (`none`) off a boundary or at/after the end of the string. -/
def removeAtByte (s : List Char) (i : Nat) : Option (List Char) :=
  match splitAtByte s i with
  | some (a, _ :: rest) => some (a ++ rest)
  | _ => none

/-- Rust `String::replace_range(start..e, repl)`: replace the byte range
`start..e` by `repl`; panics (`none`) when the range is invalid or either
end is off a character boundary. -/
def replaceByteRange (s : List Char) (start e : Nat) (repl : List Char) :
    Option (List Char) :=
  if start ≤ e then
    match splitAtByte s start with
    | some (a, rest) =>
      match splitAtByte rest (e - start) with
      | some (_, b) => some (a ++ repl ++ b)
      | none => none
    | none => none
  else
    none

/-!
### `TextInputState` (onyx-tui/src/text_input.rs)

`text` is the UTF-8 string, `cursor_position` and `selection_start` are
byte offsets, exactly as in the Rust struct.
-/

structure TextInputState where
  text : List Char
  cursor_position : Nat
  selection_start : Option Nat
deriving DecidableEq, Repr

namespace TextInputState

/-- `TextInputState::new`. -/
def new : TextInputState :=
  { text := [], cursor_position := 0, selection_start := none }

/-- `TextInputState::selection_range`. -/
def selection_range (s : TextInputState) : Option (Nat × Nat) :=
  s.selection_start.map (fun start =>
    if start < s.cursor_position then (start, s.cursor_position)
    else (s.cursor_position, start))

/-- `TextInputState::insert_char`.  Note the Rust code advances the cursor
by `1` byte regardless of the byte width of the inserted character. -/
def insert_char (s : TextInputState) (c : Char) : Option TextInputState :=
  match s.selection_range with
  | some (start, e) =>
    (replaceByteRange s.text start e [c]).map (fun t =>
      { text := t, cursor_position := start + 1, selection_start := none })
  | none =>
    (insertAtByte s.text s.cursor_position c).map (fun t =>
      { s with text := t, cursor_position := s.cursor_position + 1 })

/-- `TextInputState::delete_char_before`. -/
def delete_char_before (s : TextInputState) : Option TextInputState :=
  match s.selection_range with
  | some (start, e) =>
    (replaceByteRange s.text start e []).map (fun t =>
      { text := t, cursor_position := start, selection_start := none })
  | none =>
    if s.cursor_position > 0 then
      (removeAtByte s.text (s.cursor_position - 1)).map (fun t =>
        { s with text := t, cursor_position := s.cursor_position - 1 })
    else
      some s

/-- `TextInputState::delete_char_after`. -/
def delete_char_after (s : TextInputState) : Option TextInputState :=
  match s.selection_range with
  | some (start, e) =>
    (replaceByteRange s.text start e []).map (fun t =>
      { text := t, cursor_position := start, selection_start := none })
  | none =>
    if s.cursor_position < byteLen s.text then
      (removeAtByte s.text s.cursor_position).map (fun t => { s with text := t })
    else
      some s

/-- `TextInputState::move_cursor_left`. -/
def move_cursor_left (s : TextInputState) (with_selection : Bool) : TextInputState :=
  if with_selection then
    let s := if s.selection_start = none
      then { s with selection_start := some s.cursor_position } else s
    if s.cursor_position > 0 then
      { s with cursor_position := s.cursor_position - 1 }
    else s
  else if s.selection_start.isSome then
    match s.selection_range with
    | some (start, _) => { s with cursor_position := start, selection_start := none }
    | none => { s with selection_start := none }
  else if s.cursor_position > 0 then
    { s with cursor_position := s.cursor_position - 1 }
  else s

/-- `TextInputState::move_cursor_right`. -/
def move_cursor_right (s : TextInputState) (with_selection : Bool) : TextInputState :=
  if with_selection then
    let s := if s.selection_start = none
      then { s with selection_start := some s.cursor_position } else s
    if s.cursor_position < byteLen s.text then
      { s with cursor_position := s.cursor_position + 1 }
    else s
  else if s.selection_start.isSome then
    match s.selection_range with
    | some (_, e) => { s with cursor_position := e, selection_start := none }
    | none => { s with selection_start := none }
  else if s.cursor_position < byteLen s.text then
    { s with cursor_position := s.cursor_position + 1 }
  else s

/-- `TextInputState::select_all`. -/
def select_all (s : TextInputState) : TextInputState :=
  { s with selection_start := some 0, cursor_position := byteLen s.text }

end TextInputState

/-- One editing operation on the input buffer, as listed by the claim:
insert, delete (both directions), cursor movement (± selection), select-all. -/
inductive EditOp where
  | insert (c : Char)
  | delete_before
  | delete_after
  | move_left (with_selection : Bool)
  | move_right (with_selection : Bool)
  | select_all
deriving DecidableEq, Repr

/-- Apply one operation; `none` models a Rust panic on a byte index that is
not a character boundary. -/
def applyEdit (s : TextInputState) : EditOp → Option TextInputState
  | .insert c => s.insert_char c
  | .delete_before => s.delete_char_before
  | .delete_after => s.delete_char_after
  | .move_left b => some (s.move_cursor_left b)
  | .move_right b => some (s.move_cursor_right b)
  | .select_all => some s.select_all

/-- Run a sequence of editing operations. -/
def runEdits (s : TextInputState) (ops : List EditOp) : Option TextInputState :=
  ops.foldlM applyEdit s

/-- Well-formedness of an all-ASCII buffer state: single-byte text, cursor
and selection anchor inside the buffer. -/
def AsciiWF (s : TextInputState) : Prop :=
  (∀ c ∈ s.text, utf8Size c = 1) ∧
  s.cursor_position ≤ s.text.length ∧
  (∀ a, s.selection_start = some a → a ≤ s.text.length)

/-!
### `UndoManager` (onyx-tui/src/text_input.rs)

The Rust struct carries a `last_save_time : Instant`; the only use of the
clock is the test `elapsed.as_millis() > UNDO_GROUP_INTERVAL_MS` inside
`save`.  Real time is not part of a shallow embedding, so `save` takes the
outcome of that test as an explicit boolean argument `elapsedOver` and the
timestamp field is dropped; a forced save (`force = true`) behaves the same
for any value of the oracle, which is all the claims need.
-/

/-- `MAX_UNDO_HISTORY`. -/
def MAX_UNDO_HISTORY : Nat := 100

structure UndoManager where
  history : List TextInputState
  position : Nat
deriving DecidableEq, Repr

namespace UndoManager

/-- `UndoManager::new`. -/
def new : UndoManager :=
  { history := [TextInputState.new], position := 0 }

/-- `UndoManager::save`.  `elapsedOver` stands for the clock test
`elapsed.as_millis() > UNDO_GROUP_INTERVAL_MS`. -/
def save (m : UndoManager) (state : TextInputState) (force elapsedOver : Bool) :
    UndoManager :=
  let should_save := force || elapsedOver
  if should_save then
    let h0 := if m.position < m.history.length
      then m.history.take (m.position + 1) else m.history
    if h0.getLast? ≠ some state then
      let h1 := h0 ++ [state]
      let p1 := h1.length - 1
      if h1.length > MAX_UNDO_HISTORY then
        { history := h1.drop 1, position := p1 - 1 }
      else
        { history := h1, position := p1 }
    else
      { history := h0, position := m.position }
  else
    m

/-- `UndoManager::undo`, paired with the buffer it acts on: a returned
snapshot replaces the buffer, `None` leaves it unchanged.  Indexing
`history[position]` out of bounds is a Rust panic, embedded as `none`. -/
def undoStep (p : UndoManager × TextInputState) :
    Option (UndoManager × TextInputState) :=
  if p.1.position > 0 then
    match p.1.history.get? (p.1.position - 1) with
    | some snap => some ({ p.1 with position := p.1.position - 1 }, snap)
    | none => none
  else
    some p

/-- Iterate `undo` `n` times. -/
def runUndos : Nat → UndoManager × TextInputState → Option (UndoManager × TextInputState)
  | 0, p => some p
  | n + 1, p => (undoStep p).bind (runUndos n)

/-- Perform one forced save per listed buffer state (the buffer holds the
state just saved). -/
def runForcedSaves (p : UndoManager × TextInputState) (states : List TextInputState) :
    UndoManager × TextInputState :=
  states.foldl (fun q st => (q.1.save st true false, st)) p

/-- The state reached between saves/undos: the history is non-empty, starts
with the initial snapshot, the position is in range and the paired buffer
is the snapshot stored at the current position. -/
def Tracks (p : UndoManager × TextInputState) : Prop :=
  1 ≤ p.1.history.length ∧
  p.1.position < p.1.history.length ∧
  p.1.history.head? = some TextInputState.new ∧
  p.1.history.get? p.1.position = some p.2

end UndoManager

/-- Fold an arbitrary sequence of `save` calls, each with its own `force`
flag and debounce-clock outcome. -/
def runSaves (m : UndoManager) (calls : List (TextInputState × Bool × Bool)) :
    UndoManager :=
  calls.foldl (fun acc c => acc.save c.1 c.2.1 c.2.2) m

/-- One hundred pairwise-distinct buffer states (cursor offsets 1..100 over
an empty text), used to exercise the history capacity exactly. -/
def c5States : List TextInputState :=
  (List.range MAX_UNDO_HISTORY).map
    (fun i => { text := [], cursor_position := i + 1, selection_start := none })

/-!
### `ScrollManager` (onyx-tui/src/scroll.rs)

The Rust struct also carries a `scrollbar_state : ScrollbarState`, a purely
visual ratatui widget state recomputed from `position` on each call; it has
no influence on `position` or `auto_scroll` and is omitted.  All saturating
`usize` arithmetic maps to truncated `Nat` subtraction.  In
`ensure_visible` the source computes `viewport_height - 1`, which underflows
(panics in checked builds) when `viewport_height = 0`; the embedding uses
truncated subtraction, so it is faithful for `viewport_height ≥ 1`, and
every theorem below stays in that range.
-/

structure ScrollManager where
  position : Nat
  auto_scroll : Bool
deriving DecidableEq, Repr

namespace ScrollManager

/-- `ScrollManager::new`. -/
def new : ScrollManager :=
  { position := 0, auto_scroll := true }

/-- `ScrollManager::scroll_up`. -/
def scroll_up (m : ScrollManager) (amount : Nat) : ScrollManager :=
  { position := m.position - amount, auto_scroll := false }

/-- `ScrollManager::scroll_down`. -/
def scroll_down (m : ScrollManager) (amount : Nat) : ScrollManager :=
  { position := m.position + amount, auto_scroll := false }

/-- `ScrollManager::update`. -/
def update (m : ScrollManager) (content_length viewport_height : Nat) :
    ScrollManager :=
  { m with position :=
      if m.auto_scroll then content_length - viewport_height
      else min m.position (content_length - 1) }

/-- `ScrollManager::ensure_visible`. -/
def ensure_visible (m : ScrollManager) (line viewport_height content_length : Nat) :
    ScrollManager :=
  let p :=
    if line < m.position then line
    else if line ≥ m.position + viewport_height then line - (viewport_height - 1)
    else m.position
  let max_scroll := content_length - viewport_height
  { m with position := min p max_scroll }

end ScrollManager

/-!
### `StreamEvent` and `ChatAgent::send_stream` (onyx-agent/src/chat.rs)

`send_stream` first awaits the backend reply; a backend error is propagated
with `?`, so in that case the function returns `Err` before sending any
event.  On success it walks the reply character by character, accumulating
a rolling buffer (`current_chunk`), and sends events over an unbounded
channel whose receiver is alive for the whole session loop in
onyx/src/main.rs, so `tx.send` never fails and the early-exit `break`
branches are dead; the 10 ms pacing sleep has no semantic effect.  The
decode loop is embedded as a pure function from the reply to the emitted
event list.  `current_chunk.len() >= 5` is a byte-length test (`byteLen`);
`ends_with` / `strip_suffix` against the ASCII markers coincide with
character-level suffix operations because no UTF-8 continuation byte is
ASCII.
-/

inductive StreamEvent where
  | ThinkingStart
  | ThinkingChunk (text : List Char)
  | ThinkingEnd
  | ContentChunk (text : List Char)
  | Done
  | Error (text : List Char)
deriving DecidableEq, Repr

/-- The literal open marker `"<thinking>"` (10 bytes). -/
def thinkingOpen : List Char := "<thinking>".data

/-- The literal close marker `"</thinking>"` (11 bytes). -/
def thinkingClose : List Char := "</thinking>".data

/-- The character loop of `send_stream`: state `(in_thinking, current_chunk)`
against the remaining input; returns the events emitted until `Done`. -/
def decodeChars : Bool → List Char → List Char → List StreamEvent
  | in_thinking, current_chunk, [] =>
    (if current_chunk ≠ [] then
      if in_thinking then
        [StreamEvent.ThinkingChunk current_chunk, StreamEvent.ThinkingEnd]
      else
        [StreamEvent.ContentChunk current_chunk]
    else []) ++ [StreamEvent.Done]
  | in_thinking, current_chunk, c :: rest =>
    let chunk := current_chunk ++ [c]
    if thinkingOpen.isSuffixOf chunk then
      StreamEvent.ThinkingStart :: decodeChars true [] rest
    else if thinkingClose.isSuffixOf chunk && in_thinking then
      let thinking_text := chunk.take (chunk.length - thinkingClose.length)
      (if thinking_text ≠ [] then [StreamEvent.ThinkingChunk thinking_text] else []) ++
        StreamEvent.ThinkingEnd :: decodeChars false [] rest
    else if byteLen chunk ≥ 5 then
      (if in_thinking then StreamEvent.ThinkingChunk chunk
       else StreamEvent.ContentChunk chunk) :: decodeChars in_thinking [] rest
    else
      decodeChars in_thinking chunk rest

/-- `ChatAgent::send_stream`: the backend outcome (reply text or error
message) determines the emitted events and the function result.  On a
backend error the `?` operator returns `Err` immediately: nothing is sent,
in particular no `Error` and no `Done` event. -/
def send_stream (backendResult : Except (List Char) (List Char)) :
    List StreamEvent × Except (List Char) Unit :=
  match backendResult with
  | Except.error e => ([], Except.error e)
  | Except.ok text => (decodeChars false [] text, Except.ok ())

/-- The reply string of claim C2. -/
def c2Reply : List Char := "hello <thinking>planning</thinking> world".data

/-!
### `App` (onyx-tui/src/ui.rs) and the session loop (onyx/src/main.rs)

The embedding keeps every `App` field the claims touch: transcript,
input buffer (byte cursor and byte selection anchor, duplicating
`TextInputState`'s logic inline as the Rust does), submit flag, scroll
offset, processing flag, command palette state and the inline undo
history.  Omitted fields are pure render state (`scroll_state`, `theme`,
`input_focused`, `spinner_state`, `config_saved`), the configuration
editor (`config`, `mode`, `config_editor` — the embedded handler is the
Chat-mode branch of `handle_event`), and the wall clock
(`undo_group_timer`: as for `UndoManager`, the debounce test outcome is an
explicit boolean, and `Message.timestamp` is render-only).  Scroll
`saturating_add` is plain `Nat` addition (no overflow below `usize::MAX`);
`saturating_sub` is truncated subtraction.
-/

inductive Role where
  | User
  | Assistant
deriving DecidableEq, Repr

structure Message where
  role : Role
  content : List Char
  thinking : Option (List Char)
  is_streaming : Bool
deriving DecidableEq, Repr

namespace Message

/-- `Message::user`. -/
def user (content : List Char) : Message :=
  { role := Role.User, content := content, thinking := none, is_streaming := false }

/-- `Message::assistant`. -/
def assistant (content : List Char) : Message :=
  { role := Role.Assistant, content := content, thinking := none, is_streaming := false }

/-- `Message::assistant_streaming`. -/
def assistant_streaming : Message :=
  { role := Role.Assistant, content := [], thinking := none, is_streaming := true }

end Message

/-- Rust `char::is_whitespace` (the Unicode `White_Space` property). -/
def isRustWhitespace (c : Char) : Bool :=
  let n := c.val.toNat
  (0x09 ≤ n && n ≤ 0x0D) || n = 0x20 || n = 0x85 || n = 0xA0 || n = 0x1680 ||
    (0x2000 ≤ n && n ≤ 0x200A) || n = 0x2028 || n = 0x2029 || n = 0x202F ||
    n = 0x205F || n = 0x3000

/-- Rust `char::is_ascii_punctuation`. -/
def isAsciiPunctuation (c : Char) : Bool :=
  let n := c.val.toNat
  (0x21 ≤ n && n ≤ 0x2F) || (0x3A ≤ n && n ≤ 0x40) ||
    (0x5B ≤ n && n ≤ 0x60) || (0x7B ≤ n && n ≤ 0x7E)

/-- Byte index of the start of the last whitespace character
(Rust `str::rfind(|c| c.is_whitespace())`). -/
def rfindWsByte : List Char → Option Nat
  | [] => none
  | c :: rest =>
    match rfindWsByte rest with
    | some i => some (utf8Size c + i)
    | none => if isRustWhitespace c then some 0 else none

structure App where
  messages : List Message
  input : List Char
  cursor_position : Nat
  selection_start : Option Nat
  should_quit : Bool
  show_help : Bool
  submit : Bool
  scroll : Nat
  auto_scroll : Bool
  is_processing : Bool
  show_command_menu : Bool
  command_menu_selected : Nat
  available_commands : List (List Char × List Char)
  undo_history : List (List Char × Nat)
  undo_position : Nat
deriving DecidableEq, Repr

/-- The static command table built in `App::new`. -/
def defaultCommands : List (List Char × List Char) :=
  [("/help".data, "Show help information".data),
   ("/config".data, "Open configuration editor".data),
   ("/now".data, "Insert current date and time".data),
   ("/save".data, "Save conversation to log file".data)]

namespace App

/-- `App::new`. -/
def new : App :=
  { messages := []
    input := []
    cursor_position := 0
    selection_start := none
    should_quit := false
    show_help := true
    submit := false
    scroll := 0
    auto_scroll := true
    is_processing := false
    show_command_menu := false
    command_menu_selected := 0
    available_commands := defaultCommands
    undo_history := [([], 0)]
    undo_position := 0 }

/-- `App::get_selection_range`. -/
def get_selection_range (a : App) : Option (Nat × Nat) :=
  match a.selection_start with
  | some start =>
    if start < a.cursor_position then some (start, a.cursor_position)
    else some (a.cursor_position, start)
  | none => none

/-- `App::update_command_menu`.  Slicing `&input[..cursor]` and
`&word[start+1..]` at a non-boundary byte offset is a Rust panic
(`none`). -/
def update_command_menu (a : App) : Option App :=
  match splitAtByte a.input a.cursor_position with
  | none => none
  | some (pre, _) =>
    match rfindWsByte pre with
    | some i =>
      match splitAtByte pre (i + 1) with
      | none => none
      | some (_, word) =>
        if word.head? = some '/' then some { a with show_command_menu := true }
        else some { a with show_command_menu := false, command_menu_selected := 0 }
    | none =>
      if pre.head? = some '/' then some { a with show_command_menu := true }
      else some { a with show_command_menu := false, command_menu_selected := 0 }

/-- `App::get_filtered_commands`.  `cmd.starts_with(word)` on UTF-8 byte
strings coincides with character-list prefixing. -/
def get_filtered_commands (a : App) : Option (List (List Char × List Char)) :=
  match splitAtByte a.input a.cursor_position with
  | none => none
  | some (pre, _) =>
    let wordOpt : Option (List Char) :=
      match rfindWsByte pre with
      | some i => (splitAtByte pre (i + 1)).map Prod.snd
      | none => some pre
    match wordOpt with
    | none => none
    | some word =>
      if word.head? = some '/' then
        some (a.available_commands.filter (fun cmd => word.isPrefixOf cmd.1))
      else
        some []

/-- `App::save_to_undo`; `elapsedOver` is the debounce-clock outcome, as in
`UndoManager.save`. -/
def save_to_undo (a : App) (force elapsedOver : Bool) : App :=
  let should_save := force || elapsedOver
  if should_save then
    let h0 := if a.undo_position < a.undo_history.length
      then a.undo_history.take (a.undo_position + 1) else a.undo_history
    let state := (a.input, a.cursor_position)
    if h0.getLast? ≠ some state then
      let h1 := h0 ++ [state]
      let p1 := h1.length - 1
      if h1.length > 100 then
        { a with undo_history := h1.drop 1, undo_position := p1 - 1 }
      else
        { a with undo_history := h1, undo_position := p1 }
    else
      { a with undo_history := h0 }
  else a

/-- `App::undo` (decrements the position, restores the snapshot stored
there, clears the selection, recomputes the palette). -/
def undo (a : App) : Option App :=
  if a.undo_position > 0 then
    match a.undo_history.get? (a.undo_position - 1) with
    | some st =>
      update_command_menu
        { a with
          undo_position := a.undo_position - 1
          input := st.1
          cursor_position := st.2
          selection_start := none }
    | none => none
  else
    some a

end App

/-- One chat-mode key event of `App::handle_event`; `char` carries the
debounce-clock outcome consumed by `save_to_undo`. -/
inductive KeyEv where
  | ctrlC
  | ctrlL
  | ctrlA
  | ctrlZ
  | ctrlD
  | up
  | down
  | pageUp
  | pageDown
  | home
  | endKey
  | char (c : Char) (elapsedOver : Bool)
  | backspace
  | delete
  | left (shift : Bool)
  | right (shift : Bool)
  | tab
  | enter
deriving DecidableEq, Repr

namespace App

/-- The chat-mode branch of `App::handle_event`.  Byte-index string
operations that would panic in Rust yield `none`. -/
def handle_event (a : App) : KeyEv → Option App
  | KeyEv.ctrlC => some { a with should_quit := true }
  | KeyEv.ctrlL => some { a with messages := [], scroll := 0, auto_scroll := true }
  | KeyEv.ctrlA =>
    some { a with selection_start := some 0, cursor_position := byteLen a.input }
  | KeyEv.ctrlZ => a.undo
  | KeyEv.ctrlD =>
    if a.input = [] then
      some { a with should_quit := true }
    else
      update_command_menu
        { a.save_to_undo true false with
          input := [], cursor_position := 0, selection_start := none }
  | KeyEv.up =>
    if a.show_command_menu then
      match a.get_filtered_commands with
      | none => none
      | some fl =>
        if fl ≠ [] then
          some { a with command_menu_selected := a.command_menu_selected - 1 }
        else
          some a
    else
      some { a with scroll := a.scroll - 1, auto_scroll := false }
  | KeyEv.down =>
    if a.show_command_menu then
      match a.get_filtered_commands with
      | none => none
      | some fl =>
        if fl ≠ [] ∧ a.command_menu_selected < fl.length - 1 then
          some { a with command_menu_selected := a.command_menu_selected + 1 }
        else
          some a
    else
      some { a with scroll := a.scroll + 1, auto_scroll := false }
  | KeyEv.pageUp => some { a with scroll := a.scroll - 10, auto_scroll := false }
  | KeyEv.pageDown => some { a with scroll := a.scroll + 10, auto_scroll := false }
  | KeyEv.home => some { a with scroll := 0, auto_scroll := false }
  | KeyEv.endKey => some { a with auto_scroll := true }
  | KeyEv.char c e =>
    let wb := isRustWhitespace c || isAsciiPunctuation c
    let a := a.save_to_undo wb e
    let inserted : Option App :=
      match a.get_selection_range with
      | some (start, stop) =>
        (replaceByteRange a.input start stop [c]).map (fun t =>
          { a with input := t, cursor_position := start + 1, selection_start := none })
      | none =>
        (insertAtByte a.input a.cursor_position c).map (fun t =>
          { a with input := t, cursor_position := a.cursor_position + 1 })
    match inserted with
    | none => none
    | some a =>
      (update_command_menu a).map (fun a => { a with show_help := false })
  | KeyEv.backspace =>
    let a := a.save_to_undo true false
    let deleted : Option App :=
      match a.get_selection_range with
      | some (start, stop) =>
        (replaceByteRange a.input start stop []).map (fun t =>
          { a with input := t, cursor_position := start, selection_start := none })
      | none =>
        if a.cursor_position > 0 then
          (removeAtByte a.input (a.cursor_position - 1)).map (fun t =>
            { a with input := t, cursor_position := a.cursor_position - 1 })
        else
          some a
    match deleted with
    | none => none
    | some a => update_command_menu a
  | KeyEv.delete =>
    let a := a.save_to_undo true false
    let deleted : Option App :=
      match a.get_selection_range with
      | some (start, stop) =>
        (replaceByteRange a.input start stop []).map (fun t =>
          { a with input := t, cursor_position := start, selection_start := none })
      | none =>
        if a.cursor_position < byteLen a.input then
          (removeAtByte a.input a.cursor_position).map (fun t => { a with input := t })
        else
          some a
    match deleted with
    | none => none
    | some a => update_command_menu a
  | KeyEv.left shift =>
    if shift then
      let a := if a.selection_start = none
        then { a with selection_start := some a.cursor_position } else a
      let a := if a.cursor_position > 0
        then { a with cursor_position := a.cursor_position - 1 } else a
      update_command_menu a
    else if a.selection_start.isSome then
      let a := match a.get_selection_range with
        | some (start, _) =>
          { a with cursor_position := start, selection_start := none }
        | none => { a with selection_start := none }
      update_command_menu a
    else if a.cursor_position > 0 then
      update_command_menu { a with cursor_position := a.cursor_position - 1 }
    else
      update_command_menu a
  | KeyEv.right shift =>
    if shift then
      let a := if a.selection_start = none
        then { a with selection_start := some a.cursor_position } else a
      let a := if a.cursor_position < byteLen a.input
        then { a with cursor_position := a.cursor_position + 1 } else a
      update_command_menu a
    else if a.selection_start.isSome then
      let a := match a.get_selection_range with
        | some (_, stop) =>
          { a with cursor_position := stop, selection_start := none }
        | none => { a with selection_start := none }
      update_command_menu a
    else if a.cursor_position < byteLen a.input then
      update_command_menu { a with cursor_position := a.cursor_position + 1 }
    else
      update_command_menu a
  | KeyEv.tab =>
    if a.show_command_menu then
      match a.get_filtered_commands with
      | none => none
      | some fl =>
        if fl ≠ [] then
          let a := a.save_to_undo true false
          let selected_idx := a.command_menu_selected % fl.length
          let selected_command := (fl.getD selected_idx ([], [])).1
          match splitAtByte a.input a.cursor_position with
          | none => none
          | some (pre, _) =>
            let cmd_start :=
              match rfindWsByte pre with
              | some pos => pos + 1
              | none => 0
            match replaceByteRange a.input cmd_start a.cursor_position selected_command with
            | none => none
            | some t =>
              some { a with
                input := t
                cursor_position := cmd_start + byteLen selected_command
                show_command_menu := false
                command_menu_selected := 0 }
        else
          some a
    else
      some a
  | KeyEv.enter => some { a with show_help := false, submit := true }

/-- Run a sequence of chat-mode key events. -/
def run_events (a : App) (evs : List KeyEv) : Option App :=
  evs.foldlM handle_event a

end App

/-- The UTF-8 characters of the literal `"/now"`. -/
def nowPattern : List Char := "/now".data

/-- Rust `str::replace("/now", repl)`: leftmost non-overlapping occurrences. -/
def replaceNow (repl : List Char) : List Char → List Char
  | '/' :: 'n' :: 'o' :: 'w' :: rest => repl ++ replaceNow repl rest
  | c :: rest => c :: replaceNow repl rest
  | [] => []

namespace App

/-- `App::expand_now_command`; the formatted current time is the explicit
argument `now` (wall clock). -/
def expand_now_command (now : List Char) (input : List Char) : List Char :=
  replaceNow now input

/-- `App::add_message`. -/
def add_message (a : App) (msg : Message) : App :=
  { a with messages := a.messages ++ [msg], auto_scroll := true }

/-- `App::take_input`. -/
def take_input (now : List Char) (a : App) : Option (List Char) × App :=
  if a.submit = false then
    (none, a)
  else
    let a := { a with submit := false }
    if a.input = [] then
      (none, a)
    else
      (some (expand_now_command now a.input),
       { a with
         input := []
         cursor_position := 0
         selection_start := none
         show_command_menu := false
         command_menu_selected := 0
         undo_history := [([], 0)]
         undo_position := 0 })

end App

/-- The "Please configure your API key" fallback message of the session
loop. -/
def apiKeyPrompt : List Char :=
  "Please configure your API key first. Type /config to open the configuration editor.".data

/-- The submit phase of one iteration of the session loop in
onyx/src/main.rs: drain `take_input`; a slash command goes to
`App::handle_command` (configuration-editor switching and log-file
writing are I/O, abstracted as the `slashResponse` oracle for the
optional reply message); ordinary text appends the user message and, when
an agent was constructed, sets the processing flag and appends the empty
streaming assistant message (the backend call itself runs in a spawned
task and changes no `App` state here); without an agent an advisory
assistant message is appended instead. -/
def submitPhase (now : List Char) (slashResponse : List Char → Option (List Char))
    (agentPresent : Bool) (a : App) : App :=
  match App.take_input now a with
  | (none, a) => a
  | (some input, a) =>
    if input.head? = some '/' then
      match slashResponse input with
      | some resp => a.add_message (Message.assistant resp)
      | none => a
    else
      let a := a.add_message (Message.user input)
      if agentPresent then
        let a := { a with is_processing := true }
        a.add_message Message.assistant_streaming
      else
        a.add_message (Message.assistant apiKeyPrompt)

/-- The palette selection invariant: the table is the static one, the
stored index is below the table size, and a hidden palette has index `0`. -/
def SelInv (a : App) : Prop :=
  a.available_commands = defaultCommands ∧
  a.command_menu_selected < a.available_commands.length ∧
  (a.show_command_menu = false → a.command_menu_selected = 0)

/-- The byte offset of the start of the current word, as computed in the
Tab-acceptance branch of `handle_event` (one past the last whitespace, or
the start of the text). -/
def wordStartByte (pre : List Char) : Nat :=
  match rfindWsByte pre with
  | some i => i + 1
  | none => 0

/-- A palette state with the word `/c` under the cursor and a stale stored
selection index `5`, larger than the filtered list. -/
def tabApp : App :=
  { App.new with
    input := ['/', 'c'], cursor_position := 2, show_command_menu := true,
    command_menu_selected := 5 }

/-- The commands filtered by the word `/c`. -/
def flC : List (List Char × List Char) :=
  [("/config".data, "Open configuration editor".data)]

/-- A session state awaiting a reply (`is_processing` set, a pending
submission of `hi` in the buffer). -/
def awaitingApp : App :=
  { App.new with
    is_processing := true, submit := true, input := ['h', 'i'],
    cursor_position := 2 }

/-! ### Theorems -/

theorem utf8Size_pos (c : Char) : 0 < utf8Size c := by
  unfold utf8Size
  repeat' split
  all_goals omega

@[simp]
theorem byteLen_nil : byteLen [] = 0 := rfl

@[simp]
theorem byteLen_cons (c : Char) (s : List Char) :
    byteLen (c :: s) = utf8Size c + byteLen s := rfl

@[simp]
theorem byteLen_append (a b : List Char) :
    byteLen (a ++ b) = byteLen a + byteLen b := by
  induction a with
  | nil => simp
  | cons c rest ih => simp [ih]; omega

/-- A successful split decomposes the string and measures the prefix. -/
theorem splitAtByte_eq (s : List Char) (i : Nat) (a b : List Char)
    (h : splitAtByte s i = some (a, b)) : s = a ++ b ∧ byteLen a = i := by
  induction s generalizing i a b with
  | nil =>
    cases i with
    | zero =>
      simp only [splitAtByte, Option.some.injEq, Prod.mk.injEq] at h
      obtain ⟨rfl, rfl⟩ := h
      exact ⟨rfl, rfl⟩
    | succ j => simp [splitAtByte] at h
  | cons c rest ih =>
    cases i with
    | zero =>
      simp only [splitAtByte, Option.some.injEq, Prod.mk.injEq] at h
      obtain ⟨rfl, rfl⟩ := h
      exact ⟨rfl, rfl⟩
    | succ j =>
      simp only [splitAtByte] at h
      split at h
      · cases hrec : splitAtByte rest (j + 1 - utf8Size c) with
        | none => rw [hrec] at h; simp at h
        | some p =>
          rw [hrec] at h
          rcases p with ⟨p1, p2⟩
          simp only [Option.map, Option.some.injEq, Prod.mk.injEq] at h
          obtain ⟨ha, rfl⟩ := h
          obtain ⟨hs, hlen⟩ := ih _ _ _ hrec
          subst hs
          rw [← ha]
          constructor
          · simp
          · simp only [byteLen_cons]
            omega
      · simp at h

/-- Splitting at the byte length of a known prefix succeeds. -/
theorem splitAtByte_append (a b : List Char) :
    splitAtByte (a ++ b) (byteLen a) = some (a, b) := by
  induction a with
  | nil => simp [splitAtByte]
  | cons c rest ih =>
    have hpos := utf8Size_pos c
    simp only [List.cons_append, byteLen_cons]
    rw [show utf8Size c + byteLen rest = (utf8Size c + byteLen rest - 1) + 1 by omega]
    simp only [splitAtByte]
    rw [if_pos (by omega)]
    rw [show utf8Size c + byteLen rest - 1 + 1 - utf8Size c = byteLen rest by omega]
    rw [ih]
    rfl

/-- A split of a prefix extends to a split of the whole string. -/
theorem splitAtByte_append_left (a b x y : List Char) (i : Nat)
    (h : splitAtByte a i = some (x, y)) :
    splitAtByte (a ++ b) i = some (x, y ++ b) := by
  obtain ⟨rfl, rfl⟩ := splitAtByte_eq a i x y h
  rw [List.append_assoc]
  exact splitAtByte_append x (y ++ b)

/-!
### Byte arithmetic on single-byte (ASCII) strings
-/

theorem byteLen_ascii (s : List Char) (h : ∀ c ∈ s, utf8Size c = 1) :
    byteLen s = s.length := by
  induction s with
  | nil => rfl
  | cons c rest ih =>
    simp only [byteLen_cons, List.length_cons, h c (by simp)]
    rw [ih (fun c hc => h c (by simp [hc]))]
    omega

theorem splitAtByte_ascii (s : List Char) (i : Nat)
    (h : ∀ c ∈ s, utf8Size c = 1) (hi : i ≤ s.length) :
    splitAtByte s i = some (s.take i, s.drop i) := by
  induction s generalizing i with
  | nil =>
    have hz : i = 0 := by simpa using hi
    subst hz
    rfl
  | cons c rest ih =>
    cases i with
    | zero => rfl
    | succ j =>
      have hc : utf8Size c = 1 := h c (by simp)
      simp only [splitAtByte, hc]
      rw [if_pos (by omega)]
      rw [show j + 1 - 1 = j by omega]
      rw [ih j (fun c hc => h c (by simp [hc])) (by simpa using hi)]
      rfl

theorem insertAtByte_ascii (s : List Char) (i : Nat) (c : Char)
    (h : ∀ c ∈ s, utf8Size c = 1) (hi : i ≤ s.length) :
    insertAtByte s i c = some (s.take i ++ c :: s.drop i) := by
  simp [insertAtByte, splitAtByte_ascii s i h hi]

theorem removeAtByte_ascii (s : List Char) (i : Nat)
    (h : ∀ c ∈ s, utf8Size c = 1) (hi : i < s.length) :
    removeAtByte s i = some (s.take i ++ s.drop (i + 1)) := by
  unfold removeAtByte
  rw [splitAtByte_ascii s i h (by omega)]
  rw [List.drop_eq_getElem_cons hi]

theorem replaceByteRange_ascii (s : List Char) (start e : Nat) (repl : List Char)
    (h : ∀ c ∈ s, utf8Size c = 1) (h1 : start ≤ e) (h2 : e ≤ s.length) :
    replaceByteRange s start e repl = some (s.take start ++ repl ++ s.drop e) := by
  simp only [replaceByteRange, if_pos h1, splitAtByte_ascii s start h (by omega),
    splitAtByte_ascii (s.drop start) (e - start)
      (fun c hc => h c (List.mem_of_mem_drop hc)) (by simp; omega),
    List.drop_drop, Option.some.injEq]
  congr 2
  omega

theorem selection_range_bounds (s : TextInputState) (a b : Nat)
    (hs : AsciiWF s) (h : s.selection_range = some (a, b)) :
    a ≤ b ∧ b ≤ s.text.length := by
  obtain ⟨-, hcur, hsel⟩ := hs
  unfold TextInputState.selection_range at h
  cases hstart : s.selection_start with
  | none => rw [hstart] at h; simp at h
  | some start =>
    have hst := hsel start hstart
    rw [hstart] at h
    simp only [Option.map] at h
    split at h <;>
      (simp only [Option.some.injEq, Prod.mk.injEq] at h; obtain ⟨rfl, rfl⟩ := h; omega)

theorem AsciiWF.mk' (t : List Char) (cp : Nat) (ss : Option Nat)
    (h1 : ∀ c ∈ t, utf8Size c = 1) (h2 : cp ≤ t.length)
    (h3 : ∀ a, ss = some a → a ≤ t.length) :
    AsciiWF { text := t, cursor_position := cp, selection_start := ss } :=
  ⟨h1, h2, h3⟩

theorem selection_range_eq_none (s : TextInputState)
    (h : s.selection_range = none) : s.selection_start = none := by
  unfold TextInputState.selection_range at h
  cases hs : s.selection_start with
  | none => rfl
  | some x => rw [hs] at h; simp [Option.map] at h

theorem applyEdit_ascii (s : TextInputState) (op : EditOp)
    (hs : AsciiWF s) (hop : ∀ c, op = EditOp.insert c → utf8Size c = 1) :
    ∃ s', applyEdit s op = some s' ∧ AsciiWF s' := by
  obtain ⟨hascii, hcur, hsel⟩ := hs
  have hmem_take : ∀ i, ∀ c ∈ s.text.take i, utf8Size c = 1 :=
    fun i c hc => hascii c (List.mem_of_mem_take hc)
  have hmem_drop : ∀ i, ∀ c ∈ s.text.drop i, utf8Size c = 1 :=
    fun i c hc => hascii c (List.mem_of_mem_drop hc)
  cases op with
  | insert c =>
    have hc : utf8Size c = 1 := hop c rfl
    simp only [applyEdit, TextInputState.insert_char]
    cases hrange : s.selection_range with
    | some p =>
      rcases p with ⟨a, b⟩
      obtain ⟨hab, hb⟩ := selection_range_bounds s a b ⟨hascii, hcur, hsel⟩ hrange
      simp only [replaceByteRange_ascii s.text a b [c] hascii hab hb, Option.map]
      refine ⟨_, rfl, ?_, ?_, ?_⟩
      · intro x hx
        simp only [List.mem_append, List.mem_singleton] at hx
        rcases hx with (hx | hx) | hx
        · exact hmem_take _ x hx
        · rw [hx]; exact hc
        · exact hmem_drop _ x hx
      · simp only [List.length_append, List.length_take, List.length_singleton]
        omega
      · intro a ha; simp at ha
    | none =>
      simp only [insertAtByte_ascii s.text s.cursor_position c hascii hcur, Option.map]
      refine ⟨_, rfl, ?_, ?_, ?_⟩
      · intro x hx
        simp only [List.mem_append, List.mem_cons] at hx
        rcases hx with hx | hx | hx
        · exact hmem_take _ x hx
        · rw [hx]; exact hc
        · exact hmem_drop _ x hx
      · simp only [List.length_append, List.length_take, List.length_cons]
        omega
      · intro a ha
        simp only [selection_range_eq_none s hrange] at ha
        cases ha
  | delete_before =>
    simp only [applyEdit, TextInputState.delete_char_before]
    cases hrange : s.selection_range with
    | some p =>
      rcases p with ⟨a, b⟩
      obtain ⟨hab, hb⟩ := selection_range_bounds s a b ⟨hascii, hcur, hsel⟩ hrange
      simp only [replaceByteRange_ascii s.text a b [] hascii hab hb, Option.map]
      refine ⟨_, rfl, ?_, ?_, ?_⟩
      · intro x hx
        simp only [List.append_nil, List.nil_append, List.mem_append] at hx
        rcases hx with hx | hx
        · exact hmem_take _ x hx
        · exact hmem_drop _ x hx
      · simp only [List.append_nil, List.nil_append, List.length_append, List.length_take]
        omega
      · intro a ha; simp at ha
    | none =>
      simp only [Option.map]
      by_cases h0 : s.cursor_position > 0
      · rw [if_pos h0]
        simp only [removeAtByte_ascii s.text (s.cursor_position - 1) hascii (by omega),
          Option.map]
        refine ⟨_, rfl, ?_, ?_, ?_⟩
        · intro x hx
          simp only [List.mem_append] at hx
          rcases hx with hx | hx
          · exact hmem_take _ x hx
          · exact hmem_drop _ x hx
        · simp only [List.length_append, List.length_take, List.length_drop]
          omega
        · intro a ha
          simp only [selection_range_eq_none s hrange] at ha
          cases ha
      · rw [if_neg h0]
        exact ⟨s, rfl, hascii, hcur, hsel⟩
  | delete_after =>
    simp only [applyEdit, TextInputState.delete_char_after]
    cases hrange : s.selection_range with
    | some p =>
      rcases p with ⟨a, b⟩
      obtain ⟨hab, hb⟩ := selection_range_bounds s a b ⟨hascii, hcur, hsel⟩ hrange
      simp only [replaceByteRange_ascii s.text a b [] hascii hab hb, Option.map]
      refine ⟨_, rfl, ?_, ?_, ?_⟩
      · intro x hx
        simp only [List.append_nil, List.nil_append, List.mem_append] at hx
        rcases hx with hx | hx
        · exact hmem_take _ x hx
        · exact hmem_drop _ x hx
      · simp only [List.append_nil, List.nil_append, List.length_append, List.length_take]
        omega
      · intro a ha; simp at ha
    | none =>
      simp only [Option.map, byteLen_ascii s.text hascii]
      by_cases h0 : s.cursor_position < s.text.length
      · rw [if_pos h0]
        simp only [removeAtByte_ascii s.text s.cursor_position hascii h0, Option.map]
        refine ⟨_, rfl, ?_, ?_, ?_⟩
        · intro x hx
          simp only [List.mem_append] at hx
          rcases hx with hx | hx
          · exact hmem_take _ x hx
          · exact hmem_drop _ x hx
        · simp only [List.length_append, List.length_take, List.length_drop]
          omega
        · intro a ha
          simp only [selection_range_eq_none s hrange] at ha
          cases ha
      · rw [if_neg h0]
        exact ⟨s, rfl, hascii, hcur, hsel⟩
  | move_left b =>
    refine ⟨_, rfl, ?_⟩
    unfold TextInputState.move_cursor_left
    cases hss : s.selection_start with
    | none =>
      cases b with
      | true =>
        rw [if_pos rfl, if_pos rfl]
        by_cases h0 : s.cursor_position > 0
        · rw [if_pos h0]
          exact AsciiWF.mk' s.text (s.cursor_position - 1) (some s.cursor_position)
            hascii (by omega) (fun a ha => by injection ha with h; omega)
        · rw [if_neg h0]
          exact AsciiWF.mk' s.text s.cursor_position (some s.cursor_position)
            hascii hcur (fun a ha => by injection ha with h; omega)
      | false =>
        rw [if_neg (by simp), if_neg (by simp)]
        by_cases h0 : s.cursor_position > 0
        · rw [if_pos h0]
          exact AsciiWF.mk' s.text (s.cursor_position - 1) none
            hascii (by omega) (fun a ha => nomatch ha)
        · rw [if_neg h0]
          exact ⟨hascii, hcur, hsel⟩
    | some x =>
      have hx := hsel x hss
      cases b with
      | true =>
        rw [if_pos rfl]
        rw [if_neg (show ¬((some x : Option Nat) = none) from by simp)]
        by_cases h0 : s.cursor_position > 0
        · rw [if_pos h0]
          exact AsciiWF.mk' s.text (s.cursor_position - 1) s.selection_start
            hascii (by omega) (fun a ha => by rw [hss] at ha; injection ha with h; omega)
        · rw [if_neg h0]
          exact ⟨hascii, hcur, hsel⟩
      | false =>
        rw [if_neg (show ¬(false = true) from by simp)]
        rw [if_pos (show (some x : Option Nat).isSome = true from rfl)]
        simp only [TextInputState.selection_range, hss, Option.map]
        by_cases hlt : x < s.cursor_position
        · rw [if_pos hlt]
          exact AsciiWF.mk' s.text x none hascii hx (fun a ha => nomatch ha)
        · rw [if_neg hlt]
          exact AsciiWF.mk' s.text s.cursor_position none hascii hcur (fun a ha => nomatch ha)
  | move_right b =>
    refine ⟨_, rfl, ?_⟩
    have hbl : byteLen s.text = s.text.length := byteLen_ascii s.text hascii
    unfold TextInputState.move_cursor_right
    cases hss : s.selection_start with
    | none =>
      cases b with
      | true =>
        rw [if_pos rfl, if_pos rfl]
        by_cases h0 : s.cursor_position < byteLen s.text
        · rw [if_pos h0]
          exact AsciiWF.mk' s.text (s.cursor_position + 1) (some s.cursor_position)
            hascii (by omega) (fun a ha => by injection ha with h; omega)
        · rw [if_neg h0]
          exact AsciiWF.mk' s.text s.cursor_position (some s.cursor_position)
            hascii hcur (fun a ha => by injection ha with h; omega)
      | false =>
        rw [if_neg (by simp), if_neg (by simp)]
        by_cases h0 : s.cursor_position < byteLen s.text
        · rw [if_pos h0]
          exact AsciiWF.mk' s.text (s.cursor_position + 1) none
            hascii (by omega) (fun a ha => nomatch ha)
        · rw [if_neg h0]
          exact ⟨hascii, hcur, hsel⟩
    | some x =>
      have hx := hsel x hss
      cases b with
      | true =>
        rw [if_pos rfl]
        rw [if_neg (show ¬((some x : Option Nat) = none) from by simp)]
        by_cases h0 : s.cursor_position < byteLen s.text
        · rw [if_pos h0]
          exact AsciiWF.mk' s.text (s.cursor_position + 1) s.selection_start
            hascii (by omega) (fun a ha => by rw [hss] at ha; injection ha with h; omega)
        · rw [if_neg h0]
          exact ⟨hascii, hcur, hsel⟩
      | false =>
        rw [if_neg (show ¬(false = true) from by simp)]
        rw [if_pos (show (some x : Option Nat).isSome = true from rfl)]
        simp only [TextInputState.selection_range, hss, Option.map]
        by_cases hlt : x < s.cursor_position
        · rw [if_pos hlt]
          exact AsciiWF.mk' s.text s.cursor_position none hascii hcur (fun a ha => nomatch ha)
        · rw [if_neg hlt]
          exact AsciiWF.mk' s.text x none hascii hx (fun a ha => nomatch ha)
  | select_all =>
    refine ⟨_, rfl, ?_⟩
    exact AsciiWF.mk' s.text (byteLen s.text) (some 0)
      hascii (le_of_eq (byteLen_ascii s.text hascii))
      (fun a ha => by injection ha with h; omega)

theorem runEdits_ascii (ops : List EditOp) (s : TextInputState)
    (hs : AsciiWF s) (hops : ∀ c, EditOp.insert c ∈ ops → utf8Size c = 1) :
    ∃ s', runEdits s ops = some s' ∧ AsciiWF s' := by
  induction ops generalizing s with
  | nil => exact ⟨s, rfl, hs⟩
  | cons op rest ih =>
    obtain ⟨s1, h1, hwf1⟩ := applyEdit_ascii s op hs
      (fun c hc => hops c (by rw [hc]; exact List.mem_cons_self _ _))
    obtain ⟨s', h', hwf'⟩ := ih s1 hwf1 (fun c hc => hops c (List.mem_cons_of_mem _ hc))
    refine ⟨s', ?_, hwf'⟩
    simp only [runEdits, List.foldlM_cons] at h' ⊢
    rw [h1]
    exact h'

/-- Claim C1 (counterexample): starting from a fresh buffer, the single
operation sequence `[insert 'é']` produces a state whose cursor is not on a
character boundary — `insert_char` advances the byte cursor by `1` although
`'é'` occupies two bytes.  This refutes the claim that the cursor lies on a
character boundary after every insert/delete/move/select sequence. -/
theorem c1_cursor_boundary_counterexample :
    (runEdits TextInputState.new [EditOp.insert 'é']).map
      (fun s => isCharBoundary s.text s.cursor_position) = some false := by
  decide

/-- Claim C1 (amended): for every well-formed all-ASCII buffer state and
every sequence of insert/delete/move/select operations in which every
inserted character is single-byte (ASCII), no operation panics and the
final state satisfies `cursor ≤ byte length of text` with the cursor on a
character boundary.  (With multi-byte characters such as `'é'` the
boundary part fails, see the counterexample.) -/
theorem c1_cursor_boundary_ascii (s : TextInputState) (ops : List EditOp)
    (hs : AsciiWF s) (hops : ∀ c, EditOp.insert c ∈ ops → utf8Size c = 1) :
    ∃ s', runEdits s ops = some s' ∧
      s'.cursor_position ≤ byteLen s'.text ∧
      isCharBoundary s'.text s'.cursor_position = true := by
  obtain ⟨s', h, hwf⟩ := runEdits_ascii ops s hs hops
  obtain ⟨ha, hc, -⟩ := hwf
  refine ⟨s', h, ?_, ?_⟩
  · rw [byteLen_ascii _ ha]
    exact hc
  · unfold isCharBoundary
    rw [splitAtByte_ascii _ _ ha hc]
    rfl

/-- Concrete instance of the amended claim C1: typing `h`, `i`, moving left
and deleting, from the empty buffer. -/
theorem c1_cursor_boundary_ascii_witness :
    ∃ s', runEdits TextInputState.new
        [EditOp.insert 'h', EditOp.insert 'i', EditOp.move_left false,
         EditOp.delete_before] = some s' ∧
      s'.cursor_position ≤ byteLen s'.text ∧
      isCharBoundary s'.text s'.cursor_position = true :=
  c1_cursor_boundary_ascii TextInputState.new _
    ⟨fun c hc => absurd hc (List.not_mem_nil c), by decide, fun a ha => nomatch ha⟩
    (by
      intro c hc
      simp only [List.mem_cons, List.not_mem_nil, or_false] at hc
      rcases hc with h | h | h | h
      · injection h with h
        subst h
        decide
      · injection h with h
        subst h
        decide
      · injection h
      · injection h)

namespace UndoManager

theorem save_forced_tracks (m : UndoManager) (buf st : TextInputState) (e : Bool)
    (hpos : m.position = m.history.length - 1)
    (ht : Tracks (m, buf))
    (hcap : m.history.length + 1 ≤ MAX_UNDO_HISTORY) :
    Tracks (m.save st true e, st) ∧
    (m.save st true e).position = (m.save st true e).history.length - 1 ∧
    (m.save st true e).history.length ≤ m.history.length + 1 := by
  obtain ⟨hlen, hlt, hhead, hget⟩ := ht
  dsimp only at hlen hlt hhead hget
  simp only [UndoManager.save, Bool.true_or, if_true]
  rw [if_pos (show m.position < m.history.length from by omega)]
  rw [show m.position + 1 = m.history.length from by omega]
  rw [List.take_length m.history]
  by_cases hdup : m.history.getLast? ≠ some st
  · rw [if_pos hdup]
    rw [if_neg (show ¬(m.history ++ [st]).length > MAX_UNDO_HISTORY from by
      simp only [List.length_append, List.length_singleton]; omega)]
    refine ⟨⟨?_, ?_, ?_, ?_⟩, ?_, ?_⟩ <;> dsimp only
    · simp only [List.length_append, List.length_singleton]
      omega
    · simp only [List.length_append, List.length_singleton]
      omega
    · rw [List.head?_append, hhead]
      rfl
    · simp only [List.length_append, List.length_singleton]
      rw [show m.history.length + 1 - 1 = m.history.length from by omega]
      rw [List.get?_append_right (le_refl m.history.length)]
      simp
    · simp only [List.length_append, List.length_singleton]
      omega
  · rw [if_neg hdup]
    push_neg at hdup
    refine ⟨⟨?_, ?_, ?_, ?_⟩, ?_, ?_⟩ <;> dsimp only
    · exact hlen
    · exact hlt
    · exact hhead
    · rw [List.get?_eq_getElem?, hpos]
      rw [List.getLast?_eq_getElem?] at hdup
      exact hdup
    · omega
    · omega

theorem runForcedSaves_tracks (states : List TextInputState)
    (m : UndoManager) (buf : TextInputState)
    (hpos : m.position = m.history.length - 1)
    (ht : Tracks (m, buf))
    (hcap : m.history.length + states.length ≤ MAX_UNDO_HISTORY) :
    Tracks (UndoManager.runForcedSaves (m, buf) states) ∧
    (UndoManager.runForcedSaves (m, buf) states).1.position =
      (UndoManager.runForcedSaves (m, buf) states).1.history.length - 1 ∧
    (UndoManager.runForcedSaves (m, buf) states).1.history.length ≤
      m.history.length + states.length := by
  induction states generalizing m buf with
  | nil => exact ⟨ht, hpos, by simp [UndoManager.runForcedSaves]⟩
  | cons st rest ih =>
    obtain ⟨ht1, hpos1, hlen1⟩ :=
      save_forced_tracks m buf st false hpos ht
        (by simp only [List.length_cons] at hcap; omega)
    obtain ⟨ht2, hpos2, hlen2⟩ := ih (m.save st true false) st hpos1 ht1
      (by simp only [List.length_cons] at hcap; omega)
    simp only [UndoManager.runForcedSaves, List.foldl_cons] at ht2 hpos2 hlen2 ⊢
    refine ⟨ht2, hpos2, ?_⟩
    simp only [List.length_cons]
    omega

theorem runUndos_reaches_initial (n : Nat) (p : UndoManager × TextInputState)
    (ht : Tracks p) (hn : p.1.position ≤ n) :
    (UndoManager.runUndos n p).map Prod.snd = some TextInputState.new := by
  induction n generalizing p with
  | zero =>
    obtain ⟨hlen, hlt, hhead, hget⟩ := ht
    have hp0 : p.1.position = 0 := by omega
    rw [hp0, List.get?_zero, hhead] at hget
    simp only [UndoManager.runUndos, Option.map, Option.some.injEq]
    injection hget with hget
    exact hget.symm
  | succ k ih =>
    obtain ⟨hlen, hlt, hhead, hget⟩ := ht
    simp only [UndoManager.runUndos, UndoManager.undoStep]
    by_cases h0 : p.1.position > 0
    · rw [if_pos h0]
      have hlt' : p.1.position - 1 < p.1.history.length := by omega
      rw [List.get?_eq_get hlt']
      simp only [Option.some_bind]
      exact ih ({ p.1 with position := p.1.position - 1 }, _)
        ⟨hlen, by dsimp only; omega, hhead, by dsimp only; rw [List.get?_eq_get hlt']⟩
        (by dsimp only; omega)
    · rw [if_neg h0]
      simp only [Option.some_bind]
      exact ih p ⟨hlen, hlt, hhead, hget⟩ (by omega)

end UndoManager

theorem save_bounds (m : UndoManager) (st : TextInputState) (f e : Bool)
    (h1 : m.position < m.history.length)
    (h2 : m.history.length ≤ MAX_UNDO_HISTORY) :
    (m.save st f e).position < (m.save st f e).history.length ∧
    (m.save st f e).history.length ≤ MAX_UNDO_HISTORY := by
  unfold UndoManager.save
  by_cases hs : (f || e) = true
  · rw [if_pos hs, if_pos h1]
    by_cases hdup : (m.history.take (m.position + 1)).getLast? ≠ some st
    · rw [if_pos hdup]
      by_cases hov :
          (m.history.take (m.position + 1) ++ [st]).length > MAX_UNDO_HISTORY
      · rw [if_pos hov]
        simp only [List.length_append, List.length_singleton, List.length_take,
          List.length_drop] at hov ⊢
        omega
      · rw [if_neg hov]
        simp only [List.length_append, List.length_singleton, List.length_take] at hov ⊢
        omega
    · rw [if_neg hdup]
      simp only [List.length_take]
      omega
  · rw [if_neg hs]
    exact ⟨h1, h2⟩

theorem runSaves_bounds (calls : List (TextInputState × Bool × Bool))
    (m : UndoManager)
    (h1 : m.position < m.history.length)
    (h2 : m.history.length ≤ MAX_UNDO_HISTORY) :
    (runSaves m calls).position < (runSaves m calls).history.length ∧
    (runSaves m calls).history.length ≤ MAX_UNDO_HISTORY := by
  induction calls generalizing m with
  | nil => exact ⟨h1, h2⟩
  | cons c rest ih =>
    obtain ⟨h1', h2'⟩ := save_bounds m c.1 c.2.1 c.2.2 h1 h2
    simpa only [runSaves, List.foldl_cons] using ih (m.save c.1 c.2.1 c.2.2) h1' h2'

/-- Claim C9: starting from a fresh `UndoManager`, after any sequence of
`save` calls (any forced flags, any debounce-clock outcomes) the history
never exceeds the capacity `MAX_UNDO_HISTORY = 100` and `position` is a
valid index into it; a push that would exceed the capacity evicts the
oldest snapshot inside `save`. -/
theorem c9_history_capacity (calls : List (TextInputState × Bool × Bool)) :
    (runSaves UndoManager.new calls).history.length ≤ MAX_UNDO_HISTORY ∧
    (runSaves UndoManager.new calls).position <
      (runSaves UndoManager.new calls).history.length :=
  let h := runSaves_bounds calls UndoManager.new (by decide) (by decide)
  ⟨h.2, h.1⟩

set_option maxRecDepth 8000 in
/-- Claim C5 (counterexample): with `n = 100 = MAX_UNDO_HISTORY` pairwise
distinct forced saves, the 100th push evicts the initial snapshot, so 100
undos end at the first saved state, not at the initial snapshot.  This
refutes the claim for `n ≤ capacity`; it holds only up to `capacity - 1`. -/
theorem c5_counterexample :
    c5States.Nodup ∧ c5States.length = MAX_UNDO_HISTORY ∧
    (UndoManager.runUndos c5States.length
        (UndoManager.runForcedSaves (UndoManager.new, TextInputState.new) c5States)).map
      Prod.snd ≠ some TextInputState.new := by
  decide

/-- Claim C5 (amended): `n` forced saves of pairwise-distinct buffer states
from a fresh `UndoManager` followed by `n` undos return the buffer to the
initial snapshot, for any `n ≤ MAX_UNDO_HISTORY - 1 = 99` (at `n = 100`
the oldest-snapshot eviction discards the initial snapshot). -/
theorem c5_undo_inverse (states : List TextInputState)
    (hnodup : states.Nodup) (hn : states.length ≤ MAX_UNDO_HISTORY - 1) :
    (UndoManager.runUndos states.length
        (UndoManager.runForcedSaves (UndoManager.new, TextInputState.new) states)).map
      Prod.snd = some TextInputState.new := by
  have hinit : UndoManager.Tracks (UndoManager.new, TextInputState.new) :=
    ⟨by decide, by decide, by decide, by decide⟩
  have hone : UndoManager.new.history.length = 1 := rfl
  obtain ⟨ht, hpos, hlen⟩ :=
    UndoManager.runForcedSaves_tracks states UndoManager.new TextInputState.new
      rfl hinit (by rw [hone]; unfold MAX_UNDO_HISTORY at hn ⊢; omega)
  exact UndoManager.runUndos_reaches_initial states.length _ ht (by omega)

/-- Concrete instance of the amended claim C5: two distinct forced saves and
two undos restore the empty snapshot. -/
theorem c5_undo_inverse_witness :
    (UndoManager.runUndos 2
        (UndoManager.runForcedSaves (UndoManager.new, TextInputState.new)
          [{ text := ['a'], cursor_position := 1, selection_start := none },
           { text := ['a', 'b'], cursor_position := 2, selection_start := none }])).map
      Prod.snd = some TextInputState.new :=
  c5_undo_inverse
    [{ text := ['a'], cursor_position := 1, selection_start := none },
     { text := ['a', 'b'], cursor_position := 2, selection_start := none }]
    (by decide) (by decide)

/-- Claim C7 (counterexample): with auto-follow off, `update` clamps the
stored position against `content_length - 1`, not
`max 0 (content_length - viewport_height)`: after scrolling down 5 lines
from fresh (position 5, auto-follow cleared), `update 6 3` leaves
position 5, above the claimed bound `3`. -/
theorem c7_update_clamp_counterexample :
    (ScrollManager.new.scroll_down 5).auto_scroll = false ∧
    ((ScrollManager.new.scroll_down 5).update 6 3).position = 5 ∧
    ¬((ScrollManager.new.scroll_down 5).update 6 3).position ≤ 6 - 3 := by
  decide

/-- Claim C7 (amended): after `update content_length viewport_height`, if
auto-follow is set the position equals `content_length - viewport_height`
(saturating, i.e. `max 0 (content_length − viewport_height)`, pinned to the
bottom); otherwise the position is clamped against `content_length - 1`:
it is at most `content_length - 1` (saturating) and never exceeds the
previously stored position. -/
theorem c7_update_position (m : ScrollManager) (n h : Nat) :
    (m.auto_scroll = true → (m.update n h).position = n - h) ∧
    (m.auto_scroll = false →
      (m.update n h).position ≤ n - 1 ∧ (m.update n h).position ≤ m.position) := by
  constructor
  · intro ha
    simp [ScrollManager.update, ha]
  · intro ha
    simp only [ScrollManager.update, ha, if_false, Bool.false_eq_true]
    omega

/-- Concrete instance of the amended claim C7, in both modes. -/
theorem c7_update_position_witness :
    (ScrollManager.new.update 6 3).position = 6 - 3 ∧
    ((ScrollManager.new.scroll_down 5).update 6 3).position ≤ 6 - 1 :=
  ⟨(c7_update_position ScrollManager.new 6 3).1 rfl,
   ((c7_update_position (ScrollManager.new.scroll_down 5) 6 3).2 rfl).1⟩

/-- Claim C8 (counterexample): `ensure_visible` does not always place `line`
inside the viewport when `content_length ≥ viewport_height`: for a line
beyond the content (`line = 5`, viewport `2`, content `2`) the final clamp
forces position `0` and `5 ∉ [0, 0 + 2)`. -/
theorem c8_ensure_visible_counterexample :
    2 ≥ 2 ∧
    (ScrollManager.new.ensure_visible 5 2 2).position = 0 ∧
    ¬(5 < (ScrollManager.new.ensure_visible 5 2 2).position + 2) := by
  decide

/-- Claim C8 (amended): for a non-degenerate viewport (`viewport_height ≥ 1`)
and a line that exists (`line < content_length`), `ensure_visible` yields a
position with `line ∈ [position, position + viewport_height)`; and for every
input whatsoever the resulting position respects the global clamp
`position ≤ content_length - viewport_height` (saturating). -/
theorem c8_ensure_visible_in_window (m : ScrollManager) (line h n : Nat)
    (hh : 1 ≤ h) (hline : line < n) :
    (m.ensure_visible line h n).position ≤ line ∧
    line < (m.ensure_visible line h n).position + h ∧
    (m.ensure_visible line h n).position ≤ n - h := by
  unfold ScrollManager.ensure_visible
  dsimp only
  by_cases h1 : line < m.position
  · rw [if_pos h1]
    omega
  · rw [if_neg h1]
    by_cases h2 : line ≥ m.position + h
    · rw [if_pos h2]
      omega
    · rw [if_neg h2]
      omega

/-- Concrete instance of the amended claim C8. -/
theorem c8_ensure_visible_in_window_witness :
    (ScrollManager.new.ensure_visible 7 3 10).position ≤ 7 ∧
    7 < (ScrollManager.new.ensure_visible 7 3 10).position + 3 ∧
    (ScrollManager.new.ensure_visible 7 3 10).position ≤ 10 - 3 :=
  c8_ensure_visible_in_window ScrollManager.new 7 3 10 (by decide) (by decide)

/-- Claim C3: when the backend call fails, `send_stream` emits no session
event at all — not even the claimed single terminal `Error(message)` — and
returns the error to its caller (which in onyx/src/main.rs only prints it
to stderr, leaving `is_processing` set and the streaming message open). -/
theorem c3_backend_failure_emits_no_events (e : List Char) :
    send_stream (Except.error e) = ([], Except.error e) := rfl

/-- Claim C2: decoding the spec's reply emits only `ContentChunk`s spelling
out the entire reply — markers included, flushed every 5 bytes — followed by
`Done`; no `ThinkingStart`/`ThinkingChunk`/`ThinkingEnd` is ever emitted,
because the rolling buffer is flushed whenever it reaches 5 bytes and so can
never end with the 10-byte open marker (the marker branch is dead code). -/
theorem c2_decode_spec_reply :
    (send_stream (Except.ok c2Reply)).1 =
      [StreamEvent.ContentChunk "hello".data,
       StreamEvent.ContentChunk " <thi".data,
       StreamEvent.ContentChunk "nking".data,
       StreamEvent.ContentChunk ">plan".data,
       StreamEvent.ContentChunk "ning<".data,
       StreamEvent.ContentChunk "/thin".data,
       StreamEvent.ContentChunk "king>".data,
       StreamEvent.ContentChunk " worl".data,
       StreamEvent.ContentChunk "d".data,
       StreamEvent.Done] ∧
    StreamEvent.ThinkingStart ∉ (send_stream (Except.ok c2Reply)).1 := by
  constructor
  · decide
  · decide

/-- The palette-relevant fields written by `update_command_menu`: the menu
either becomes visible with the stored index untouched, or hidden with the
index reset to `0`; nothing else changes. -/
theorem update_command_menu_spec (a a' : App)
    (h : App.update_command_menu a = some a') :
    a'.available_commands = a.available_commands ∧
    a'.input = a.input ∧ a'.cursor_position = a.cursor_position ∧
    ((a'.show_command_menu = true ∧
      a'.command_menu_selected = a.command_menu_selected) ∨
     (a'.show_command_menu = false ∧ a'.command_menu_selected = 0)) := by
  unfold App.update_command_menu at h
  repeat' split at h
  all_goals
    first
      | exact Option.noConfusion h
      | (injection h with h; subst h; exact ⟨rfl, rfl, rfl, Or.inl ⟨rfl, rfl⟩⟩)
      | (injection h with h; subst h; exact ⟨rfl, rfl, rfl, Or.inr ⟨rfl, rfl⟩⟩)

/-- A filtered command list is never longer than the full table. -/
theorem get_filtered_commands_le (a : App) (fl : List (List Char × List Char))
    (h : a.get_filtered_commands = some fl) :
    fl.length ≤ a.available_commands.length := by
  simp only [App.get_filtered_commands] at h
  repeat' split at h
  all_goals
    first
      | exact Option.noConfusion h
      | (injection h with h; subst h; exact List.length_filter_le _ _)
      | (injection h with h; subst h; exact Nat.zero_le _)

/-- `save_to_undo` only writes the undo fields. -/
theorem save_to_undo_menu (a : App) (f e : Bool) :
    (a.save_to_undo f e).available_commands = a.available_commands ∧
    (a.save_to_undo f e).command_menu_selected = a.command_menu_selected ∧
    (a.save_to_undo f e).show_command_menu = a.show_command_menu ∧
    (a.save_to_undo f e).input = a.input ∧
    (a.save_to_undo f e).cursor_position = a.cursor_position ∧
    (a.save_to_undo f e).selection_start = a.selection_start := by
  simp only [App.save_to_undo]
  repeat' split
  all_goals exact ⟨rfl, rfl, rfl, rfl, rfl, rfl⟩

theorem selinv_after_update (base a' : App)
    (htab : base.available_commands = defaultCommands)
    (hsel : base.command_menu_selected < base.available_commands.length)
    (h : App.update_command_menu base = some a') : SelInv a' := by
  obtain ⟨ht, -, -, hcase⟩ := update_command_menu_spec base a' h
  rcases hcase with ⟨hs, heq⟩ | ⟨hs, heq⟩
  · refine ⟨ht.trans htab, ?_, ?_⟩
    · rw [heq, ht]
      exact hsel
    · intro hf
      rw [hs] at hf
      exact Bool.noConfusion hf
  · refine ⟨ht.trans htab, ?_, fun _ => heq⟩
    rw [heq, ht, htab]
    decide

set_option maxHeartbeats 2000000 in
theorem handle_event_selinv (a : App) (ev : KeyEv) (a' : App)
    (hinv : SelInv a) (h : a.handle_event ev = some a') : SelInv a' := by
  obtain ⟨htab, hsel, hhide⟩ := hinv
  cases ev with
  | ctrlC =>
    unfold App.handle_event at h
    injection h with h
    subst h
    exact ⟨htab, hsel, hhide⟩
  | ctrlL =>
    unfold App.handle_event at h
    injection h with h
    subst h
    exact ⟨htab, hsel, hhide⟩
  | ctrlA =>
    unfold App.handle_event at h
    injection h with h
    subst h
    exact ⟨htab, hsel, hhide⟩
  | ctrlZ =>
    unfold App.handle_event App.undo at h
    dsimp only at h
    split at h
    · split at h
      · refine selinv_after_update _ _ ?_ ?_ h
        · exact htab
        · exact hsel
      · exact Option.noConfusion h
    · injection h with h
      subst h
      exact ⟨htab, hsel, hhide⟩
  | ctrlD =>
    unfold App.handle_event at h
    dsimp only at h
    split at h
    · injection h with h
      subst h
      exact ⟨htab, hsel, hhide⟩
    · refine selinv_after_update _ _ ?_ ?_ h
      · show (App.save_to_undo a true false).available_commands = defaultCommands
        rw [(save_to_undo_menu a true false).1]
        exact htab
      · show (App.save_to_undo a true false).command_menu_selected <
          (App.save_to_undo a true false).available_commands.length
        rw [(save_to_undo_menu a true false).1, (save_to_undo_menu a true false).2.1]
        exact hsel
  | up =>
    unfold App.handle_event at h
    dsimp only at h
    split at h
    · split at h
      · exact Option.noConfusion h
      · split at h
        · injection h with h
          subst h
          refine ⟨htab, ?_, ?_⟩
          · show a.command_menu_selected - 1 < a.available_commands.length
            omega
          · intro hf
            show a.command_menu_selected - 1 = 0
            rw [hhide hf]
        · injection h with h
          subst h
          exact ⟨htab, hsel, hhide⟩
    · injection h with h
      subst h
      exact ⟨htab, hsel, hhide⟩
  | down =>
    unfold App.handle_event at h
    dsimp only at h
    split at h
    · rename_i hshow
      split at h
      · exact Option.noConfusion h
      · rename_i fl heq
        split at h
        · rename_i hcond
          injection h with h
          subst h
          have hle := get_filtered_commands_le a fl heq
          refine ⟨htab, ?_, ?_⟩
          · show a.command_menu_selected + 1 < a.available_commands.length
            omega
          · intro hf
            rw [hshow] at hf
            exact Bool.noConfusion hf
        · injection h with h
          subst h
          exact ⟨htab, hsel, hhide⟩
    · injection h with h
      subst h
      exact ⟨htab, hsel, hhide⟩
  | pageUp =>
    unfold App.handle_event at h
    injection h with h
    subst h
    exact ⟨htab, hsel, hhide⟩
  | pageDown =>
    unfold App.handle_event at h
    injection h with h
    subst h
    exact ⟨htab, hsel, hhide⟩
  | home =>
    unfold App.handle_event at h
    injection h with h
    subst h
    exact ⟨htab, hsel, hhide⟩
  | endKey =>
    unfold App.handle_event at h
    injection h with h
    subst h
    exact ⟨htab, hsel, hhide⟩
  | char c e =>
    unfold App.handle_event at h
    dsimp only at h
    split at h
    · exact Option.noConfusion h
    · rename_i a2 heq
      rw [Option.map_eq_some'] at h
      obtain ⟨a3, h3, rfl⟩ := h
      have hbase : a2.available_commands = a.available_commands ∧
          a2.command_menu_selected = a.command_menu_selected := by
        split at heq <;>
          (rw [Option.map_eq_some'] at heq
           obtain ⟨t, -, rfl⟩ := heq
           exact ⟨(save_to_undo_menu a _ e).1, (save_to_undo_menu a _ e).2.1⟩)
      have hs3 : SelInv a3 := by
        refine selinv_after_update _ _ ?_ ?_ h3
        · rw [hbase.1]
          exact htab
        · rw [hbase.1, hbase.2]
          exact hsel
      exact hs3
  | backspace =>
    unfold App.handle_event at h
    dsimp only at h
    split at h
    · exact Option.noConfusion h
    · rename_i a2 heq
      have hbase : a2.available_commands = a.available_commands ∧
          a2.command_menu_selected = a.command_menu_selected := by
        split at heq
        · rw [Option.map_eq_some'] at heq
          obtain ⟨t, -, rfl⟩ := heq
          exact ⟨(save_to_undo_menu a true false).1, (save_to_undo_menu a true false).2.1⟩
        · split at heq
          · rw [Option.map_eq_some'] at heq
            obtain ⟨t, -, rfl⟩ := heq
            exact ⟨(save_to_undo_menu a true false).1, (save_to_undo_menu a true false).2.1⟩
          · injection heq with heq
            subst heq
            exact ⟨(save_to_undo_menu a true false).1, (save_to_undo_menu a true false).2.1⟩
      refine selinv_after_update _ _ ?_ ?_ h
      · rw [hbase.1]
        exact htab
      · rw [hbase.1, hbase.2]
        exact hsel
  | delete =>
    unfold App.handle_event at h
    dsimp only at h
    split at h
    · exact Option.noConfusion h
    · rename_i a2 heq
      have hbase : a2.available_commands = a.available_commands ∧
          a2.command_menu_selected = a.command_menu_selected := by
        split at heq
        · rw [Option.map_eq_some'] at heq
          obtain ⟨t, -, rfl⟩ := heq
          exact ⟨(save_to_undo_menu a true false).1, (save_to_undo_menu a true false).2.1⟩
        · split at heq
          · rw [Option.map_eq_some'] at heq
            obtain ⟨t, -, rfl⟩ := heq
            exact ⟨(save_to_undo_menu a true false).1, (save_to_undo_menu a true false).2.1⟩
          · injection heq with heq
            subst heq
            exact ⟨(save_to_undo_menu a true false).1, (save_to_undo_menu a true false).2.1⟩
      refine selinv_after_update _ _ ?_ ?_ h
      · rw [hbase.1]
        exact htab
      · rw [hbase.1, hbase.2]
        exact hsel
  | left shift =>
    unfold App.handle_event at h
    dsimp only at h
    repeat' split at h
    all_goals
      refine selinv_after_update _ _ ?_ ?_ h
      all_goals first | exact htab | exact hsel
  | right shift =>
    unfold App.handle_event at h
    dsimp only at h
    repeat' split at h
    all_goals
      refine selinv_after_update _ _ ?_ ?_ h
      all_goals first | exact htab | exact hsel
  | tab =>
    unfold App.handle_event at h
    dsimp only at h
    split at h
    · split at h
      · exact Option.noConfusion h
      · split at h
        · split at h
          · exact Option.noConfusion h
          · split at h
            · exact Option.noConfusion h
            · injection h with h
              subst h
              refine ⟨?_, ?_, fun _ => rfl⟩
              · show (App.save_to_undo a true false).available_commands = defaultCommands
                rw [(save_to_undo_menu a true false).1]
                exact htab
              · show (0 : Nat) <
                  (App.save_to_undo a true false).available_commands.length
                rw [(save_to_undo_menu a true false).1, htab]
                decide
        · injection h with h
          subst h
          exact ⟨htab, hsel, hhide⟩
    · injection h with h
      subst h
      exact ⟨htab, hsel, hhide⟩
  | enter =>
    unfold App.handle_event at h
    injection h with h
    subst h
    exact ⟨htab, hsel, hhide⟩

theorem run_events_selinv (evs : List KeyEv) (b b' : App)
    (hb : SelInv b) (h : App.run_events b evs = some b') : SelInv b' := by
  induction evs generalizing b with
  | nil =>
    injection h with h
    subst h
    exact hb
  | cons ev rest ih =>
    simp only [App.run_events, List.foldlM_cons] at h
    cases hev : b.handle_event ev with
    | none =>
      rw [hev] at h
      simp at h
    | some b1 =>
      rw [hev] at h
      simp only [Option.bind_eq_bind, Option.some_bind] at h
      exact ih b1 (handle_event_selinv b ev b1 hb hev) h

/-- Claim C6 (counterexample): type `/`, press Down three times (selection
index 3 of 4 visible commands), then type `c`: the palette is still visible,
the filtered list has shrunk to the single entry `/config`, but the stored
selection index is still `3 ≥ 1` — typing that shrinks the filtered set
does not reclamp the index, refuting
`selected_index < count(filtered_matches)` as a visible-state invariant. -/
theorem c6_selected_counterexample :
    (App.run_events App.new
        [KeyEv.char '/' false, KeyEv.down, KeyEv.down, KeyEv.down,
         KeyEv.char 'c' false]).map
      (fun a => (a.show_command_menu, a.command_menu_selected,
        (a.get_filtered_commands).map List.length)) = some (true, 3, some 1) ∧
    ¬(3 : Nat) < 1 := by
  constructor
  · decide
  · decide

/-- Claim C6 (amended): across every sequence of chat-mode key events from
a fresh `App`, the stored selection index is bounded by the size of the
static command table (4), and whenever the palette is hidden the index is
`0` — so the index is `0 < count(filtered_matches)` at the moment the
palette becomes visible.  The stricter bound
`selected_index < count(filtered_matches)` can be violated while the
palette stays visible, by typing that shrinks the filtered set (see the
counterexample), and a single up/down key need not restore it. -/
theorem c6_selected_bounded (evs : List KeyEv) (a' : App)
    (h : App.run_events App.new evs = some a') :
    a'.command_menu_selected < a'.available_commands.length ∧
    (a'.show_command_menu = false → a'.command_menu_selected = 0) := by
  have hinv : SelInv a' :=
    run_events_selinv evs App.new a' ⟨rfl, by decide, fun _ => rfl⟩ h
  exact ⟨hinv.2.1, hinv.2.2⟩

/-- Concrete instance of the amended claim C6 after opening the palette. -/
theorem c6_selected_bounded_witness :
    ({ App.new with
        input := ['/'], cursor_position := 1, show_command_menu := true,
        show_help := false }).command_menu_selected <
      ({ App.new with
          input := ['/'], cursor_position := 1, show_command_menu := true,
          show_help := false }).available_commands.length ∧
    (({ App.new with
        input := ['/'], cursor_position := 1, show_command_menu := true,
        show_help := false }).show_command_menu = false →
      ({ App.new with
          input := ['/'], cursor_position := 1, show_command_menu := true,
          show_help := false }).command_menu_selected = 0) :=
  c6_selected_bounded [KeyEv.char '/' false]
    { App.new with
      input := ['/'], cursor_position := 1, show_command_menu := true,
      show_help := false }
    (by decide)

theorem replaceByteRange_of_splits (preW w post repl : List Char) :
    replaceByteRange (preW ++ w ++ post) (byteLen preW) (byteLen preW + byteLen w)
      repl = some (preW ++ repl ++ post) := by
  unfold replaceByteRange
  rw [if_pos (by omega)]
  rw [show preW ++ w ++ post = preW ++ (w ++ post) from by simp]
  rw [splitAtByte_append preW (w ++ post)]
  dsimp only
  rw [show byteLen preW + byteLen w - byteLen preW = byteLen w from by omega]
  rw [splitAtByte_append w post]

theorem byteLen_eq_zero (s : List Char) (h : byteLen s = 0) : s = [] := by
  cases s with
  | nil => rfl
  | cons c rest =>
    have := utf8Size_pos c
    simp only [byteLen_cons] at h
    omega

theorem get_filtered_commands_of_splits (a : App) (pre post preW w : List Char)
    (hpre : splitAtByte a.input a.cursor_position = some (pre, post))
    (hword : splitAtByte pre (wordStartByte pre) = some (preW, w))
    (hslash : w.head? = some '/') :
    a.get_filtered_commands =
      some (a.available_commands.filter (fun cmd => w.isPrefixOf cmd.1)) := by
  unfold App.get_filtered_commands
  rw [hpre]
  dsimp only
  cases hrw : rfindWsByte pre with
  | some i =>
    have hws : wordStartByte pre = i + 1 := by
      unfold wordStartByte
      rw [hrw]
    rw [hws] at hword
    dsimp only
    rw [hword]
    dsimp only [Option.map]
    rw [if_pos hslash]
  | none =>
    have hws : wordStartByte pre = 0 := by
      unfold wordStartByte
      rw [hrw]
    rw [hws] at hword
    obtain ⟨hpw, hlen0⟩ := splitAtByte_eq pre 0 preW w hword
    have hnilW : preW = [] := byteLen_eq_zero preW hlen0
    have hw : w = pre := by
      rw [hpw, hnilW]
      rfl
    dsimp only
    rw [← hw]
    rw [if_pos hslash]

theorem splitAtByte_zero (s : List Char) : splitAtByte s 0 = some ([], s) := by
  cases s <;> rfl

/-- Claim C10: from any palette state whose filtered list `fl` is non-empty
(visible palette, a current word starting with `/`, at valid byte
boundaries), Tab acceptance is total and in bounds: the chosen entry is
`fl[selected % |fl|]` (never out of bounds even when the stored index is
`≥ |fl|`), the span from the word start to the cursor is replaced by that
entry's full keyword, the cursor lands after the keyword, and the palette
closes with the selection reset to `0`; all other fields are those left by
the forced undo save. -/
theorem c10_tab_acceptance (a : App) (pre post preW w : List Char)
    (fl : List (List Char × List Char))
    (hshow : a.show_command_menu = true)
    (hpre : splitAtByte a.input a.cursor_position = some (pre, post))
    (hword : splitAtByte pre (wordStartByte pre) = some (preW, w))
    (hslash : w.head? = some '/')
    (hfl : fl = a.available_commands.filter (fun cmd => w.isPrefixOf cmd.1))
    (hne : fl ≠ []) :
    a.command_menu_selected % fl.length < fl.length ∧
    a.handle_event KeyEv.tab = some
      { a.save_to_undo true false with
        input := preW ++
          (fl.getD (a.command_menu_selected % fl.length) ([], [])).1 ++ post
        cursor_position := wordStartByte pre +
          byteLen (fl.getD (a.command_menu_selected % fl.length) ([], [])).1
        show_command_menu := false
        command_menu_selected := 0 } := by
  have hlpos : 0 < fl.length := List.length_pos.mpr hne
  refine ⟨Nat.mod_lt _ hlpos, ?_⟩
  have hgf := get_filtered_commands_of_splits a pre post preW w hpre hword hslash
  rw [← hfl] at hgf
  obtain ⟨hinputEq, hcurEq⟩ := splitAtByte_eq _ _ _ _ hpre
  obtain ⟨hpreEq, hwsEq⟩ := splitAtByte_eq _ _ _ _ hword
  have hinput2 : a.input = preW ++ w ++ post := by
    rw [hinputEq, hpreEq]
  have hcur2 : a.cursor_position = byteLen preW + byteLen w := by
    rw [← hcurEq, hpreEq, byteLen_append]
  have hws2 : wordStartByte pre = byteLen preW := hwsEq.symm
  obtain ⟨hav, hsel, hshow1, hinp1, hcur1, hss1⟩ := save_to_undo_menu a true false
  unfold App.handle_event
  dsimp only
  rw [if_pos hshow, hgf]
  dsimp only
  rw [if_pos hne]
  rw [hinp1, hcur1, hsel]
  rw [hpre]
  dsimp only
  cases hrw : rfindWsByte pre with
  | some i =>
    have hws3 : (i + 1 : Nat) = byteLen preW := by
      rw [← hws2]
      unfold wordStartByte
      rw [hrw]
    dsimp only
    rw [hws3, hinput2, hcur2]
    rw [replaceByteRange_of_splits preW w post
      (fl.getD (a.command_menu_selected % fl.length) ([], [])).1]
    rw [hws2]
  | none =>
    have hws : wordStartByte pre = 0 := by
      unfold wordStartByte
      rw [hrw]
    have h0 : preW = [] := byteLen_eq_zero preW (by rw [← hws2, hws])
    subst h0
    simp only [List.nil_append] at hinput2
    simp only [byteLen_nil, Nat.zero_add] at hcur2
    dsimp only
    have hrep : replaceByteRange a.input 0 a.cursor_position
        (fl.getD (a.command_menu_selected % fl.length) ([], [])).1 =
        some ((fl.getD (a.command_menu_selected % fl.length) ([], [])).1 ++ post) := by
      unfold replaceByteRange
      rw [if_pos (Nat.zero_le _)]
      rw [splitAtByte_zero a.input]
      dsimp only
      rw [Nat.sub_zero, hcur2, hinput2]
      rw [splitAtByte_append w post]
      dsimp only
      rw [List.nil_append]
    rw [hrep, hws]
    simp only [List.nil_append, Nat.zero_add]

/-- Concrete instance of claim C10: with stored index `5` and one filtered
match, Tab picks entry `5 % 1 = 0` (`/config`), rewrites the word span and
closes the palette. -/
theorem c10_tab_acceptance_witness :
    tabApp.command_menu_selected % flC.length < flC.length ∧
    tabApp.handle_event KeyEv.tab = some
      { tabApp.save_to_undo true false with
        input := [] ++ (flC.getD (tabApp.command_menu_selected % flC.length) ([], [])).1 ++ []
        cursor_position := wordStartByte ['/', 'c'] +
          byteLen (flC.getD (tabApp.command_menu_selected % flC.length) ([], [])).1
        show_command_menu := false
        command_menu_selected := 0 } :=
  c10_tab_acceptance tabApp ['/', 'c'] [] [] ['/', 'c'] flC rfl (by decide)
    (by decide) (by decide) (by decide) (by decide)

/-- Claim C4 (counterexample): a second submit while `is_processing` is NOT
rejected: the session loop drains the buffer (input cleared) and appends a
new user message (plus the streaming assistant placeholder) exactly as when
idle. -/
theorem c4_second_submit_counterexample :
    awaitingApp.is_processing = true ∧
    (submitPhase [] (fun _ => none) true awaitingApp).input ≠ awaitingApp.input ∧
    (submitPhase [] (fun _ => none) true awaitingApp).messages.length =
      awaitingApp.messages.length + 2 ∧
    (submitPhase [] (fun _ => none) true awaitingApp).messages.getD 0
        Message.assistant_streaming = Message.user ['h', 'i'] := by
  decide

/-- Claim C4 (amended): while `AwaitingReply` (`is_processing = true`) the
submit phase behaves exactly as when idle — there is no rejection of
concurrent submissions.  A submit attempt is a no-op only when the submit
flag is unset or the buffer is empty; a non-empty (non-slash-command)
submission drains the buffer and appends another user message followed by
the streaming assistant placeholder (or the API-key advisory when no agent
exists). -/
theorem c4_submit_not_rejected (a : App) (now : List Char)
    (slashResponse : List Char → Option (List Char)) (agent : Bool)
    (hproc : a.is_processing = true) :
    ((a.submit = false ∨ a.input = []) →
      (submitPhase now slashResponse agent a).messages = a.messages ∧
      (submitPhase now slashResponse agent a).input = a.input) ∧
    (a.submit = true → a.input ≠ [] →
      (App.expand_now_command now a.input).head? ≠ some '/' →
      (submitPhase now slashResponse agent a).messages =
        a.messages ++ [Message.user (App.expand_now_command now a.input)] ++
          (if agent then [Message.assistant_streaming]
           else [Message.assistant apiKeyPrompt]) ∧
      (submitPhase now slashResponse agent a).input = []) := by
  constructor
  · intro hrej
    unfold submitPhase App.take_input
    by_cases hsub : a.submit = false
    · rw [if_pos hsub]
      exact ⟨rfl, rfl⟩
    · rw [if_neg hsub]
      have hinp : a.input = [] := by
        rcases hrej with h | h
        · exact absurd h hsub
        · exact h
      dsimp only
      rw [if_pos hinp]
      exact ⟨rfl, rfl⟩
  · intro hsub hinp hns
    unfold submitPhase App.take_input
    rw [if_neg (by rw [hsub]; exact fun hf => Bool.noConfusion hf)]
    dsimp only
    rw [if_neg hinp]
    dsimp only
    rw [if_neg hns]
    cases agent with
    | true =>
      dsimp only [App.add_message, Message.user]
      exact ⟨rfl, rfl⟩
    | false =>
      dsimp only [App.add_message, Message.user]
      exact ⟨rfl, rfl⟩

/-- Concrete instance of the amended claim C4: both the empty-buffer
rejection and the duplicate acceptance, in one processing state. -/
theorem c4_submit_not_rejected_witness :
    ((submitPhase [] (fun _ => none) true
        { awaitingApp with input := [] }).messages =
      ({ awaitingApp with input := [] } : App).messages ∧
     (submitPhase [] (fun _ => none) true
        { awaitingApp with input := [] }).input =
      ({ awaitingApp with input := [] } : App).input) ∧
    ((submitPhase [] (fun _ => none) true awaitingApp).messages =
      awaitingApp.messages ++
        [Message.user (App.expand_now_command [] awaitingApp.input)] ++
        [Message.assistant_streaming] ∧
     (submitPhase [] (fun _ => none) true awaitingApp).input = []) := by
  constructor
  · exact (c4_submit_not_rejected { awaitingApp with input := [] } []
      (fun _ => none) true rfl).1 (Or.inr rfl)
  · have h := (c4_submit_not_rejected awaitingApp [] (fun _ => none) true rfl).2
      rfl (by decide) (by decide)
    exact ⟨h.1, h.2⟩

end Onyx
